import Mathlib

/-!
Shallow embedding of the crypto-converter repository's core, for checking its
natural-language specification.

Modelling conventions, shared by every definition below:
* time is an integer count of seconds (`datetime` values become `ℤ`;
  `timedelta(minutes=1)` becomes `60`, `timedelta(days=d)` becomes `d * 86400`);
* prices and amounts are rationals (`float` arithmetic is modelled exactly);
* the persisted store (`quotes` table) is a `List Quote`; the SQL queries of
  `db/crud.py` become pure functions over that list;
* the route handler of `api/routes.py` is a function returning both the HTTP
  outcome and the store after the request (the handler only SELECTs; the
  reciprocal written into the ORM object on the inverse path lives in a session
  that `get_session` closes without commit, so the store is unchanged on every
  exit path, which the returned second component records).
-/

/-- Row of the `quotes` table (`db/models.py`, class `Quote`): an id, the pair's
base and quote asset codes, the price and the capture timestamp. -/
structure Quote where
  id : ℕ
  base : String
  quote : String
  price : ℚ
  timestamp : ℤ
deriving DecidableEq

/-- Python's `str.upper()` for the ASCII asset codes handled here: uppercase
every character of the string. -/
def str_upper (s : String) : String := ⟨s.data.map Char.toUpper⟩

/-- The WHERE clause `Quote.base == base, Quote.quote == quote` of the
selects in `db/crud.py`. -/
def matches_pair (base quote : String) (r : Quote) : Bool :=
  r.base == base && r.quote == quote

/-- One step of scanning a result set for its most recent row. -/
def latest_step (acc : Option Quote) (r : Quote) : Option Quote :=
  match acc with
  | none => some r
  | some m => if m.timestamp < r.timestamp then some r else some m

/-- The row `ORDER BY timestamp DESC LIMIT 1` returns from a result set:
a row of maximal timestamp, none when the set is empty (of rows with equal
timestamps the first in the list is kept). -/
def latest_in (rows : List Quote) : Option Quote :=
  rows.foldl latest_step none

/-- `crud.get_latest_quote`: most recent row for the pair, regardless of age. -/
def get_latest_quote (db : List Quote) (base quote : String) : Option Quote :=
  latest_in (db.filter (matches_pair base quote))

/-- `crud.get_quote_at`: most recent row for the pair with
`timestamp <= ts`. -/
def get_quote_at (db : List Quote) (base quote : String) (ts : ℤ) : Option Quote :=
  latest_in (db.filter (fun r => matches_pair base quote r && r.timestamp ≤ ts))

/-- `crud.cleanup_old_quotes`: delete every row with
`timestamp < now - timedelta(days=retention_days)`; the surviving rows keep
their order. `retention_days` stands for `settings.QUOTE_RETENTION_DAYS`. -/
def cleanup_old_quotes (retention_days now : ℤ) (db : List Quote) : List Quote :=
  let cutoff := now - retention_days * 86400
  db.filter (fun r => !(decide (r.timestamp < cutoff)))

/-- The typed failures the `/convert` route can answer with: the three
resolver failures raised in `api/routes.py` plus the request-validation
failure FastAPI produces before the handler body runs. -/
inductive ConvertError where
  | validationError
  | invalidQuoteZeroPrice
  | pairNotAvailable
  | quotesOutdated
deriving DecidableEq

/-- The caller-observable HTTP status and detail string of each failure
(`HTTPException(status_code=..., detail=...)` in `api/routes.py`; FastAPI's
automatic 422 for a request failing query validation, whose structured body we
summarise by a fixed tag). -/
def http_response : ConvertError → ℕ × String
  | .validationError => (422, "validation_error")
  | .invalidQuoteZeroPrice => (400, "invalid_quote_zero_price")
  | .pairNotAvailable => (404, "Conversion not available for this pair")
  | .quotesOutdated => (400, "quotes_outdated")

/-- The JSON body of a successful `/convert` answer. -/
structure ConvertResult where
  base : String
  quote : String
  rate : ℚ
  amount_in : ℚ
  amount_out : ℚ
  timestamp : ℤ
  inverted : Bool
deriving DecidableEq

/-- The `if timestamp: get_quote_at(...) else: get_latest_quote(...)` branch
that `convert_currency` performs for the direct and for the swapped pair. -/
def lookup_quote (db : List Quote) (base quote : String) (timestamp : Option ℤ) :
    Option Quote :=
  match timestamp with
  | some ts => get_quote_at db base quote ts
  | none => get_latest_quote db base quote

/-- Tail of the `/convert` handler once a quote `q` is resolved: the freshness
check (`datetime.utcnow() - q.timestamp > timedelta(minutes=1)`, applied only
when the request carries no explicit timestamp) and the response body. -/
def respond (now : ℤ) (db : List Quote) (amount : ℚ) (base quote : String)
    (timestamp : Option ℤ) (q : Quote) (inverted : Bool) :
    Except ConvertError ConvertResult × List Quote :=
  if timestamp = none ∧ 60 < now - q.timestamp then
    (.error .quotesOutdated, db)
  else
    (.ok { base := base, quote := quote, rate := q.price, amount_in := amount,
           amount_out := amount * q.price, timestamp := q.timestamp,
           inverted := inverted }, db)

/-- The `/convert` handler body (`api/routes.py`, `convert_currency`):
uppercase the asset codes, try the direct pair, fall back to the swapped pair
with reciprocal price (rejecting a zero stored price), fail with not-found when
both lookups miss, enforce freshness for "latest" requests, and answer.
The store is returned unchanged on every path (the handler never commits). -/
def convert_currency (now : ℤ) (db : List Quote) (amount : ℚ)
    (from_currency to_currency : String) (timestamp : Option ℤ) :
    Except ConvertError ConvertResult × List Quote :=
  let base := str_upper from_currency
  let quote := str_upper to_currency
  match lookup_quote db base quote timestamp with
  | some q => respond now db amount base quote timestamp q false
  | none =>
    match lookup_quote db quote base timestamp with
    | some q =>
      if q.price = 0 then (.error .invalidQuoteZeroPrice, db)
      else respond now db amount base quote timestamp { q with price := 1 / q.price } true
    | none => (.error .pairNotAvailable, db)

/-- The `/convert` operation as exposed: FastAPI validates the query parameters
(`amount` strictly positive, asset codes of length 2 to 10) and answers 422
without running the handler body when validation fails. -/
def convert_endpoint (now : ℤ) (db : List Quote) (amount : ℚ)
    (from_currency to_currency : String) (timestamp : Option ℤ) :
    Except ConvertError ConvertResult × List Quote :=
  if 0 < amount ∧ 2 ≤ from_currency.length ∧ from_currency.length ≤ 10
      ∧ 2 ≤ to_currency.length ∧ to_currency.length ≤ 10 then
    convert_currency now db amount from_currency to_currency timestamp
  else
    (.error .validationError, db)

/-- `chunked` of `consumer/main.py`: `for i in range(0, len(seq), n): yield
seq[i:i+n]`. The `n = 0` case (where Python's `range` would refuse a zero
step) yields no batch; the program only calls this with the positive
`MAX_STREAMS_PER_CONN`. -/
def chunked {α : Type} (seq : List α) (n : ℕ) : List (List α) :=
  match seq, n with
  | [], _ => []
  | _ :: _, 0 => []
  | a :: as, m + 1 =>
    (a :: as).take (m + 1) :: chunked ((a :: as).drop (m + 1)) (m + 1)
termination_by seq.length
decreasing_by simp [List.length_drop]; omega

/-- Sleep durations of `run_batch`'s reconnect loop (`consumer/main.py`) over
`n` consecutive failed streaming attempts, entering the loop with the given
`backoff` value. Each `while True` iteration first runs `backoff = 1` (the
first statement of its `try` block), then streams; on failure the `except`
branch sleeps the current `backoff` and sets `backoff = min(backoff * 2, 30)`
for the next iteration. -/
def run_batch_delays : ℕ → ℕ → List ℕ
  | 0, _ => []
  | n + 1, _ =>
    let backoff := 1
    backoff :: run_batch_delays n (min (backoff * 2) 30)

/-- An inbound stream message as `run_batch` reads it: `msg.get("s")` and
`msg.get("c")`, each absent (`none`) or a string (Python's falsiness test
`if not sym_upper or not price_str` also skips empty strings). -/
structure Msg where
  s : Option String
  c : Option String

/-- The aggregator map `latest` of `run_batch`, from a pair `(base, quote)` to
the latest observed price. -/
def PairMap : Type := String × String → Option ℚ

/-- The body of `run_batch`'s `async for msg in subscribe_tickers(...)` loop
for one message: skip it when either field is missing or empty, when the
wire-symbol is not in `sym_to_pair`, or when the price fails numeric parsing
(`float(price_str)` raising `ValueError`); otherwise store the parsed price
under the pair. `parse` stands for Python's `float` and `sym_to_pair` for the
batch's lookup table. -/
def process_msg (parse : String → Option ℚ) (sym_to_pair : String → Option (String × String))
    (latest : PairMap) (msg : Msg) : PairMap :=
  match msg.s with
  | none => latest
  | some sym_upper =>
    if sym_upper = "" then latest else
    match msg.c with
    | none => latest
    | some price_str =>
      if price_str = "" then latest else
      match sym_to_pair sym_upper with
      | none => latest
      | some pair =>
        match parse price_str with
        | none => latest
        | some v => fun p => if p = pair then some v else latest p

/-- Folding `process_msg` over a finite sequence of inbound messages in
arrival order. -/
def process_msgs (parse : String → Option ℚ)
    (sym_to_pair : String → Option (String × String))
    (msgs : List Msg) (latest : PairMap) : PairMap :=
  msgs.foldl (process_msg parse sym_to_pair) latest

/-- Spec-side characterisation of one message's effect on one pair `p`: the
parsed price when the message carries a non-empty symbol mapped to `p` by the
lookup table and a non-empty, parsable price field; `none` otherwise. -/
def msg_update (parse : String → Option ℚ)
    (sym_to_pair : String → Option (String × String)) (p : String × String)
    (msg : Msg) : Option ℚ :=
  match msg.s with
  | none => none
  | some sym_upper =>
    if sym_upper = "" then none else
    match msg.c with
    | none => none
    | some price_str =>
      if price_str = "" then none else
      match sym_to_pair sym_upper with
      | none => none
      | some pair =>
        match parse price_str with
        | none => none
        | some v => if p = pair then some v else none

/-- Spec-side: the value of the last message of `msgs` that carries a valid
update for the pair `p` (in arrival order), if any. -/
def last_price_update (parse : String → Option ℚ)
    (sym_to_pair : String → Option (String × String)) (p : String × String)
    (msgs : List Msg) : Option ℚ :=
  (msgs.filterMap (msg_update parse sym_to_pair p)).getLast?

/-! ### Store-query lemmas -/

lemma foldl_latest_step_isSome (rows : List Quote) :
    ∀ m : Quote, ∃ r, rows.foldl latest_step (some m) = some r := by
  induction rows with
  | nil => exact fun m => ⟨m, rfl⟩
  | cons a rows ih =>
    intro m
    simp only [List.foldl_cons, latest_step]
    by_cases h : m.timestamp < a.timestamp
    · simpa [h] using ih a
    · simpa [h] using ih m

lemma latest_in_isSome (rows : List Quote) (h : rows ≠ []) :
    ∃ r, latest_in rows = some r := by
  cases rows with
  | nil => exact absurd rfl h
  | cons a rows => simpa [latest_in, List.foldl_cons, latest_step] using
      foldl_latest_step_isSome rows a

lemma foldl_latest_step_max (rows : List Quote) :
    ∀ m r : Quote, rows.foldl latest_step (some m) = some r →
      m.timestamp ≤ r.timestamp ∧ ∀ x ∈ rows, x.timestamp ≤ r.timestamp := by
  induction rows with
  | nil =>
    intro m r h
    obtain rfl : m = r := by simpa using h
    exact ⟨le_refl _, by simp⟩
  | cons a rows ih =>
    intro m r h
    simp only [List.foldl_cons, latest_step] at h
    by_cases hc : m.timestamp < a.timestamp
    · rw [if_pos hc] at h
      obtain ⟨h1, h2⟩ := ih a r h
      refine ⟨le_of_lt (lt_of_lt_of_le hc h1), ?_⟩
      intro x hx
      rcases List.mem_cons.1 hx with rfl | hx
      · exact h1
      · exact h2 x hx
    · rw [if_neg hc] at h
      obtain ⟨h1, h2⟩ := ih m r h
      refine ⟨h1, ?_⟩
      intro x hx
      rcases List.mem_cons.1 hx with rfl | hx
      · exact le_trans (not_lt.1 hc) h1
      · exact h2 x hx

lemma latest_in_max (rows : List Quote) (r : Quote) (h : latest_in rows = some r) :
    ∀ x ∈ rows, x.timestamp ≤ r.timestamp := by
  cases rows with
  | nil => simp [latest_in] at h
  | cons a rows =>
    rw [latest_in, List.foldl_cons] at h
    obtain ⟨h1, h2⟩ := foldl_latest_step_max rows a r h
    intro x hx
    rcases List.mem_cons.1 hx with rfl | hx
    · exact h1
    · exact h2 x hx

/-- A pair's most recent row is also what `get_quote_at` returns when queried
at exactly that row's timestamp: the extra `timestamp <= ts` clause filters
nothing away, every row of the pair being at most as recent. -/
lemma get_quote_at_of_latest (db : List Quote) (b q : String) (m : Quote)
    (h : get_latest_quote db b q = some m) :
    get_quote_at db b q m.timestamp = some m := by
  have hmax : ∀ x ∈ db.filter (matches_pair b q), x.timestamp ≤ m.timestamp :=
    latest_in_max _ _ h
  unfold get_quote_at
  have hf : db.filter (fun r => matches_pair b q r && decide (r.timestamp ≤ m.timestamp))
      = db.filter (matches_pair b q) := by
    apply List.filter_congr
    intro x hx
    cases hp : matches_pair b q x with
    | false => simp [hp]
    | true =>
      have hmem : x ∈ db.filter (matches_pair b q) := List.mem_filter.2 ⟨hx, hp⟩
      simp [hp, hmax x hmem]
  rw [hf]
  exact h

/-! ### Conversion resolution: direct lookup and freshness -/

/-- C1: a conversion request without explicit timestamp whose latest stored
record for (base, quote) exists and is fresh answers with rate equal to that
record's price, amount_in = amount, amount_out = amount * rate, the record's
timestamp, and inverted = false. -/
theorem direct_fresh_conversion (now : ℤ) (db : List Quote) (amount : ℚ)
    (f t : String) (q : Quote)
    (hq : get_latest_quote db (str_upper f) (str_upper t) = some q)
    (hfresh : now - q.timestamp ≤ 60) :
    convert_currency now db amount f t none =
      (.ok { base := str_upper f, quote := str_upper t, rate := q.price,
             amount_in := amount, amount_out := amount * q.price,
             timestamp := q.timestamp, inverted := false }, db) := by
  simp only [convert_currency, lookup_quote, hq, respond]
  rw [if_neg]
  rintro ⟨-, hlt⟩
  omega

/-- Store of the worked example behind C1: one (BTC, USDT) record of price
50000 captured at time 100. -/
def dbBTC : List Quote := [⟨1, "BTC", "USDT", 50000, 100⟩]

/-- Witness for C1: at time 130 (30 seconds after capture) converting 2 BTC
to USDT yields rate 50000 and amount_out 100000, uninverted. -/
theorem direct_fresh_conversion_witness :
    get_latest_quote dbBTC (str_upper "BTC") (str_upper "USDT")
        = some ⟨1, "BTC", "USDT", 50000, 100⟩ ∧
    (130 : ℤ) - 100 ≤ 60 ∧
    convert_currency 130 dbBTC 2 "BTC" "USDT" none =
      (.ok ⟨"BTC", "USDT", 50000, 2, 100000, 100, false⟩, dbBTC) := by
  have hq : get_latest_quote dbBTC (str_upper "BTC") (str_upper "USDT")
      = some ⟨1, "BTC", "USDT", 50000, 100⟩ := by
    simp [get_latest_quote, dbBTC, latest_in, latest_step, matches_pair, str_upper]
  refine ⟨hq, by norm_num, ?_⟩
  have h := direct_fresh_conversion 130 dbBTC 2 "BTC" "USDT"
      ⟨1, "BTC", "USDT", 50000, 100⟩ hq (by norm_num)
  have hB : str_upper "BTC" = "BTC" := by decide
  have hU : str_upper "USDT" = "USDT" := by decide
  rw [h, hB, hU]
  norm_num

/-- C3: without an explicit timestamp, a resolved record older than the fixed
1-minute freshness window is rejected as stale; with an explicit timestamp the
freshness check is skipped, so the very record rejected in a "latest" query
succeeds when queried at its own timestamp. -/
theorem stale_vs_historical (now : ℤ) (db : List Quote) (amount : ℚ)
    (f t : String) (q : Quote)
    (hq : get_latest_quote db (str_upper f) (str_upper t) = some q)
    (hstale : 60 < now - q.timestamp) :
    convert_currency now db amount f t none = (.error .quotesOutdated, db) ∧
    convert_currency now db amount f t (some q.timestamp) =
      (.ok { base := str_upper f, quote := str_upper t, rate := q.price,
             amount_in := amount, amount_out := amount * q.price,
             timestamp := q.timestamp, inverted := false }, db) := by
  constructor
  · simp only [convert_currency, lookup_quote, hq, respond]
    rw [if_pos ⟨by trivial, hstale⟩]
  · have hat := get_quote_at_of_latest db _ _ q hq
    simp only [convert_currency, lookup_quote, hat, respond]
    rw [if_neg]
    rintro ⟨h, -⟩
    exact Option.noConfusion h

/-- Store of the freshness example behind C3: one (BTC, USDT) record captured
at time 0, queried at time 200 (older than the 60-second window). -/
def dbStale : List Quote := [⟨1, "BTC", "USDT", 40000, 0⟩]

/-- Witness for C3: at time 200 the "latest" query on a record timestamped 0
fails as outdated, while the query with explicit timestamp 0 succeeds. -/
theorem stale_vs_historical_witness :
    get_latest_quote dbStale (str_upper "BTC") (str_upper "USDT")
        = some ⟨1, "BTC", "USDT", 40000, 0⟩ ∧
    (60 : ℤ) < 200 - 0 ∧
    convert_currency 200 dbStale 1 "BTC" "USDT" none
        = (.error .quotesOutdated, dbStale) ∧
    convert_currency 200 dbStale 1 "BTC" "USDT" (some 0)
        = (.ok ⟨"BTC", "USDT", 40000, 1, 40000, 0, false⟩, dbStale) := by
  have hq : get_latest_quote dbStale (str_upper "BTC") (str_upper "USDT")
      = some ⟨1, "BTC", "USDT", 40000, 0⟩ := by
    simp [get_latest_quote, dbStale, latest_in, latest_step, matches_pair, str_upper]
  have h := stale_vs_historical 200 dbStale 1 "BTC" "USDT"
      ⟨1, "BTC", "USDT", 40000, 0⟩ hq (by norm_num)
  refine ⟨hq, by norm_num, h.1, ?_⟩
  have hB : str_upper "BTC" = "BTC" := by decide
  have hU : str_upper "USDT" = "USDT" := by decide
  refine h.2.trans ?_
  rw [hB, hU]
  norm_num

/-! ### Conversion resolution: inverse lookup -/

/-- Store of the inversion example behind C2: only a (DOGE, USDT) record of
price 1/5 captured at time 0. -/
def dbDOGE : List Quote := [⟨1, "DOGE", "USDT", 1/5, 0⟩]

/-- Counterexample for C2 as stated: with only the (DOGE, USDT, 1/5) record,
timestamped 0, a "latest" USDT-to-DOGE request at time 120 does not answer
rate 5 inverted, as the claim's universal statement demands — the freshness
check still applies to inverse resolution and rejects the request as
outdated. -/
theorem inverse_conversion_counterexample :
    convert_currency 120 dbDOGE 10 "USDT" "DOGE" none
        = (.error .quotesOutdated, dbDOGE) ∧
    (Except.error ConvertError.quotesOutdated : Except ConvertError ConvertResult)
        ≠ Except.ok ⟨"USDT", "DOGE", 5, 10, 50, 0, true⟩ := by
  constructor
  · have hU : str_upper "USDT" = "USDT" := by decide
    have hD : str_upper "DOGE" = "DOGE" := by decide
    have hd : lookup_quote dbDOGE (str_upper "USDT") (str_upper "DOGE") none = none := by
      rw [hU, hD]; decide
    have hr : lookup_quote dbDOGE (str_upper "DOGE") (str_upper "USDT") none
        = some ⟨1, "DOGE", "USDT", 1/5, 0⟩ := by
      rw [hD, hU]
      simp [lookup_quote, get_latest_quote, dbDOGE, latest_in, latest_step,
        matches_pair]
    simp only [convert_currency, hd, hr, respond]
    rw [if_neg (by norm_num), if_pos ⟨by trivial, by norm_num⟩]
  · intro h
    exact Except.noConfusion h

/-- C2 (amended): when no direct record exists but the swapped pair has one,
a zero stored price is rejected as the invalid-data failure (before any
freshness consideration), and a non-zero price yields rate = 1/price with
inverted = true — the response being served provided the freshness gate does
not fire (explicit timestamp given, or record no older than the 1-minute
window); the invalid-data failure is caller-distinguishable from not-found. -/
theorem inverse_conversion (now : ℤ) (db : List Quote) (amount : ℚ)
    (f t : String) (ts : Option ℤ) (q : Quote)
    (hd : lookup_quote db (str_upper f) (str_upper t) ts = none)
    (hr : lookup_quote db (str_upper t) (str_upper f) ts = some q) :
    (q.price = 0 →
      convert_currency now db amount f t ts = (.error .invalidQuoteZeroPrice, db)) ∧
    (q.price ≠ 0 → ¬(ts = none ∧ 60 < now - q.timestamp) →
      convert_currency now db amount f t ts =
        (.ok { base := str_upper f, quote := str_upper t, rate := 1 / q.price,
               amount_in := amount, amount_out := amount * (1 / q.price),
               timestamp := q.timestamp, inverted := true }, db)) ∧
    http_response ConvertError.invalidQuoteZeroPrice
        ≠ http_response ConvertError.pairNotAvailable := by
  refine ⟨?_, ?_, by decide⟩
  · intro h0
    simp only [convert_currency, hd, hr, if_pos h0]
  · intro h0 hfr
    simp only [convert_currency, hd, hr, respond, if_neg h0]
    rw [if_neg hfr]

/-- Witness for C2 (amended): at time 30 the stored (DOGE, USDT, 1/5) record
is fresh, and converting 10 USDT to DOGE yields rate 5, amount_out 50,
inverted. -/
theorem inverse_conversion_witness :
    lookup_quote dbDOGE (str_upper "USDT") (str_upper "DOGE") none = none ∧
    lookup_quote dbDOGE (str_upper "DOGE") (str_upper "USDT") none
        = some ⟨1, "DOGE", "USDT", 1/5, 0⟩ ∧
    convert_currency 30 dbDOGE 10 "USDT" "DOGE" none =
      (.ok ⟨"USDT", "DOGE", 5, 10, 50, 0, true⟩, dbDOGE) := by
  have hd : lookup_quote dbDOGE (str_upper "USDT") (str_upper "DOGE") none = none := by
    simp [lookup_quote, get_latest_quote, dbDOGE, latest_in, latest_step,
      matches_pair, str_upper]
  have hr : lookup_quote dbDOGE (str_upper "DOGE") (str_upper "USDT") none
      = some ⟨1, "DOGE", "USDT", 1/5, 0⟩ := by
    simp [lookup_quote, get_latest_quote, dbDOGE, latest_in, latest_step,
      matches_pair, str_upper]
  refine ⟨hd, hr, ?_⟩
  have h := (inverse_conversion 30 dbDOGE 10 "USDT" "DOGE" none
      ⟨1, "DOGE", "USDT", 1/5, 0⟩ hd hr).2.1 (by norm_num) (by norm_num)
  have hU : str_upper "USDT" = "USDT" := by decide
  have hD : str_upper "DOGE" = "DOGE" := by decide
  refine h.trans ?_
  rw [hU, hD]
  norm_num

/-! ### Not-found failure and failure distinguishability -/

/-- C6: when neither direction has a record the request fails as not-found,
and the three resolver failures carry pairwise distinct caller-observable
status/detail pairs. -/
theorem pair_unavailable_distinct (now : ℤ) (db : List Quote) (amount : ℚ)
    (f t : String) (ts : Option ℤ)
    (h1 : lookup_quote db (str_upper f) (str_upper t) ts = none)
    (h2 : lookup_quote db (str_upper t) (str_upper f) ts = none) :
    convert_currency now db amount f t ts = (.error .pairNotAvailable, db) ∧
    http_response ConvertError.pairNotAvailable
        ≠ http_response ConvertError.invalidQuoteZeroPrice ∧
    http_response ConvertError.pairNotAvailable
        ≠ http_response ConvertError.quotesOutdated ∧
    http_response ConvertError.invalidQuoteZeroPrice
        ≠ http_response ConvertError.quotesOutdated :=
  ⟨by simp only [convert_currency, h1, h2], by decide, by decide, by decide⟩

/-- Witness for C6: the empty store answers not-found for ETH to USD. -/
theorem pair_unavailable_distinct_witness :
    lookup_quote [] (str_upper "ETH") (str_upper "USD") none = none ∧
    convert_currency 0 [] 1 "ETH" "USD" none = (.error .pairNotAvailable, []) :=
  ⟨rfl, (pair_unavailable_distinct 0 [] 1 "ETH" "USD" none rfl rfl).1⟩

/-! ### Request validation and read-only queries -/

/-- C10: a request whose amount is not strictly positive is rejected by the
validation layer before the handler body runs — uniformly over every store —
and that validation failure is none of the three resolver failure kinds. -/
theorem nonpositive_amount_rejected (now : ℤ) (db : List Quote) (amount : ℚ)
    (f t : String) (ts : Option ℤ) (h : amount ≤ 0) :
    convert_endpoint now db amount f t ts = (.error .validationError, db) ∧
    ConvertError.validationError ≠ ConvertError.pairNotAvailable ∧
    ConvertError.validationError ≠ ConvertError.invalidQuoteZeroPrice ∧
    ConvertError.validationError ≠ ConvertError.quotesOutdated := by
  refine ⟨?_, by decide, by decide, by decide⟩
  unfold convert_endpoint
  rw [if_neg]
  rintro ⟨h0, -⟩
  exact absurd h0 (not_lt.2 h)

/-- Witness for C10: amount 0 is rejected as a validation failure. -/
theorem nonpositive_amount_rejected_witness :
    (0 : ℚ) ≤ 0 ∧
    convert_endpoint 0 [] 0 "BTC" "USDT" none = (.error .validationError, []) :=
  ⟨le_refl 0, (nonpositive_amount_rejected 0 [] 0 "BTC" "USDT" none (le_refl 0)).1⟩

lemma respond_store (now : ℤ) (db : List Quote) (amount : ℚ) (b q : String)
    (ts : Option ℤ) (r : Quote) (inv : Bool) :
    (respond now db amount b q ts r inv).2 = db := by
  unfold respond
  split <;> rfl

lemma convert_currency_store (now : ℤ) (db : List Quote) (amount : ℚ)
    (f t : String) (ts : Option ℤ) :
    (convert_currency now db amount f t ts).2 = db := by
  unfold convert_currency
  cases h1 : lookup_quote db (str_upper f) (str_upper t) ts with
  | some q => simp only [h1]; exact respond_store ..
  | none =>
    simp only [h1]
    cases h2 : lookup_quote db (str_upper t) (str_upper f) ts with
    | some q =>
      simp only [h2]
      by_cases h0 : q.price = 0
      · rw [if_pos h0]
      · rw [if_neg h0]; exact respond_store ..
    | none => simp only [h2]

/-- C9: a conversion query is read-only — whatever the outcome, the persisted
store after the request (the second component) is the store before it, both
for the handler body and for the exposed validated operation. -/
theorem conversion_read_only (now : ℤ) (db : List Quote) (amount : ℚ)
    (f t : String) (ts : Option ℤ) :
    (convert_currency now db amount f t ts).2 = db ∧
    (convert_endpoint now db amount f t ts).2 = db := by
  refine ⟨convert_currency_store .., ?_⟩
  unfold convert_endpoint
  split
  · exact convert_currency_store ..
  · rfl

/-! ### Retention cleanup -/

/-- C7: retention cleanup keeps exactly the records not strictly older than
`now - retention_window` (deleting precisely the strictly older ones), keeps
the survivors in order, and is a no-op when run again on its own output. -/
theorem cleanup_retention (w now : ℤ) (db : List Quote) :
    (∀ r : Quote, r ∈ cleanup_old_quotes w now db ↔
        r ∈ db ∧ ¬ r.timestamp < now - w * 86400) ∧
    cleanup_old_quotes w now (cleanup_old_quotes w now db)
        = cleanup_old_quotes w now db ∧
    List.Sublist (cleanup_old_quotes w now db) db := by
  refine ⟨?_, ?_, List.filter_sublist db⟩
  · intro r
    simp [cleanup_old_quotes, List.mem_filter]
  · simp [cleanup_old_quotes, List.filter_filter]

/-! ### Reconnect backoff -/

/-- C4: evaluation of the reconnect loop's sleep durations. The delay before
every reconnect attempt is 1 time unit, however many consecutive failures
preceded it and whatever `backoff` value the loop is entered with, because
`backoff = 1` at the top of the `try` block re-runs before every attempt and
makes the capped doubling in the `except` branch a dead store. -/
theorem run_batch_delays_constant_one :
    run_batch_delays 4 1 = [1, 1, 1, 1] ∧
    (∀ n b : ℕ, run_batch_delays n b = List.replicate n 1) := by
  refine ⟨rfl, ?_⟩
  intro n
  induction n with
  | zero => intro b; rfl
  | succ n ih =>
    intro b
    simp only [run_batch_delays, List.replicate_succ]
    exact congrArg (1 :: ·) (ih _)

/-! ### Aggregator routing -/

/-- Pointwise effect of one message on the aggregator map: the pair `p` is
overwritten exactly when the message carries a valid update for `p`, and the
map is untouched at `p` otherwise. -/
lemma process_msg_apply (parse : String → Option ℚ)
    (sym_to_pair : String → Option (String × String)) (latest : PairMap)
    (msg : Msg) (p : String × String) :
    process_msg parse sym_to_pair latest msg p
      = (msg_update parse sym_to_pair p msg).or (latest p) := by
  obtain ⟨ms, mc⟩ := msg
  unfold process_msg msg_update
  cases ms with
  | none => rfl
  | some sym =>
    by_cases hsym : sym = ""
    · simp [hsym]
    · simp only [if_neg hsym]
      cases mc with
      | none => rfl
      | some cs =>
        by_cases hcs : cs = ""
        · simp [hcs]
        · simp only [if_neg hcs]
          cases sym_to_pair sym with
          | none => rfl
          | some pair =>
            cases parse cs with
            | none => rfl
            | some v =>
              by_cases hpp : p = pair
              · simp [hpp]
              · simp [hpp]

/-- C8: after processing any finite sequence of inbound messages in arrival
order, the aggregator map sends each pair to the value of the last message
carrying a valid update for it (symbol present and non-empty, price present,
non-empty and parsable, wire-symbol in the lookup table), and keeps its prior
value for pairs no message validly updates — malformed or unmapped messages
leave the map unchanged and never abort the fold. -/
theorem aggregator_last_write_wins (parse : String → Option ℚ)
    (sym_to_pair : String → Option (String × String)) (msgs : List Msg)
    (latest0 : PairMap) (p : String × String) :
    process_msgs parse sym_to_pair msgs latest0 p
      = (last_price_update parse sym_to_pair p msgs).or (latest0 p) := by
  induction msgs using List.reverseRecOn with
  | nil => rfl
  | append_singleton ms m ih =>
    have hstep : process_msgs parse sym_to_pair (ms ++ [m]) latest0 p
        = (msg_update parse sym_to_pair p m).or
            (process_msgs parse sym_to_pair ms latest0 p) := by
      unfold process_msgs
      rw [List.foldl_append, List.foldl_cons, List.foldl_nil, process_msg_apply]
    rw [hstep, ih]
    unfold last_price_update
    rw [List.filterMap_append]
    cases hu : msg_update parse sym_to_pair p m with
    | none => simp [List.filterMap_cons, hu]
    | some v => simp [List.filterMap_cons, hu, List.getLast?_concat]

/-! ### Symbol batching -/

lemma chunked_nil {α : Type} (n : ℕ) : chunked ([] : List α) n = [] := by
  rw [chunked]

lemma chunked_cons {α : Type} (a : α) (as : List α) (m : ℕ) :
    chunked (a :: as) (m + 1)
      = (a :: as).take (m + 1) :: chunked ((a :: as).drop (m + 1)) (m + 1) := by
  rw [chunked]

lemma chunked_flatten_aux {α : Type} (m : ℕ) :
    ∀ k (seq : List α), seq.length ≤ k → (chunked seq (m + 1)).flatten = seq := by
  intro k
  induction k with
  | zero =>
    intro seq h
    obtain rfl : seq = [] := List.eq_nil_of_length_eq_zero (Nat.le_zero.1 h)
    rw [chunked_nil]
    rfl
  | succ k ih =>
    intro seq h
    cases seq with
    | nil => rw [chunked_nil]; rfl
    | cons a as =>
      have hlen : ((a :: as).drop (m + 1)).length ≤ k := by
        simp only [List.length_drop, List.length_cons] at *
        omega
      rw [chunked_cons, List.flatten_cons, ih _ hlen, List.take_append_drop]

lemma chunked_length_aux {α : Type} (m : ℕ) :
    ∀ k (seq : List α), seq.length ≤ k →
      (chunked seq (m + 1)).length = (seq.length + (m + 1) - 1) / (m + 1) := by
  intro k
  induction k with
  | zero =>
    intro seq h
    obtain rfl : seq = [] := List.eq_nil_of_length_eq_zero (Nat.le_zero.1 h)
    rw [chunked_nil]
    simp only [List.length_nil]
    symm
    exact Nat.div_eq_of_lt (by omega)
  | succ k ih =>
    intro seq h
    cases seq with
    | nil =>
      rw [chunked_nil]
      simp only [List.length_nil]
      symm
      exact Nat.div_eq_of_lt (by omega)
    | cons a as =>
      have hlen : ((a :: as).drop (m + 1)).length ≤ k := by
        simp only [List.length_drop, List.length_cons] at *
        omega
      rw [chunked_cons, List.length_cons, ih _ hlen, List.length_drop]
      simp only [List.length_cons]
      by_cases hc : m ≤ as.length
      · have h1 : as.length + 1 - (m + 1) + (m + 1) - 1 = as.length := by omega
        have h2 : as.length + 1 + (m + 1) - 1 = as.length + (m + 1) := by omega
        rw [h1, h2, Nat.add_div_right _ (Nat.succ_pos m)]
      · have h1 : as.length + 1 - (m + 1) + (m + 1) - 1 = m := by omega
        have h2 : as.length + 1 + (m + 1) - 1 = as.length + (m + 1) := by omega
        rw [h1, h2, Nat.add_div_right _ (Nat.succ_pos m),
          Nat.div_eq_of_lt (by omega), Nat.div_eq_of_lt (by omega)]

lemma chunked_getElem_aux {α : Type} (m : ℕ) :
    ∀ k (seq : List α), seq.length ≤ k →
      ∀ i, i < (chunked seq (m + 1)).length →
        (chunked seq (m + 1))[i]? = some ((seq.drop (i * (m + 1))).take (m + 1)) := by
  intro k
  induction k with
  | zero =>
    intro seq h i hi
    obtain rfl : seq = [] := List.eq_nil_of_length_eq_zero (Nat.le_zero.1 h)
    rw [chunked_nil] at hi
    exact absurd hi (by simp)
  | succ k ih =>
    intro seq h i hi
    cases seq with
    | nil =>
      rw [chunked_nil] at hi
      exact absurd hi (by simp)
    | cons a as =>
      have hlen : ((a :: as).drop (m + 1)).length ≤ k := by
        simp only [List.length_drop, List.length_cons] at *
        omega
      cases i with
      | zero =>
        rw [chunked_cons, List.getElem?_cons_zero, Nat.zero_mul, List.drop_zero]
      | succ i =>
        have hi' : i < (chunked ((a :: as).drop (m + 1)) (m + 1)).length := by
          rw [chunked_cons, List.length_cons] at hi
          omega
        rw [chunked_cons, List.getElem?_cons_succ, ih _ hlen i hi', List.drop_drop]
        have harith : m + 1 + i * (m + 1) = (i + 1) * (m + 1) := by ring
        rw [harith]

/-- C5: for a positive fan-out limit n, `chunked` yields exactly
ceil(N/n) = (N + n - 1) / n batches; batch i is precisely the input elements
at indices [i*n, (i+1)*n); concatenating the batches in order restores the
input (every element covered exactly once, order preserved); every batch has
size at most n and every batch but possibly the last has size exactly n; and
empty input yields zero batches. -/
theorem chunked_spec {α : Type} (seq : List α) (n : ℕ) (hn : n ≠ 0) :
    (chunked seq n).length = (seq.length + n - 1) / n ∧
    (∀ i, i < (chunked seq n).length →
        (chunked seq n)[i]? = some ((seq.drop (i * n)).take n)) ∧
    (chunked seq n).flatten = seq ∧
    (∀ b ∈ chunked seq n, b.length ≤ n) ∧
    (∀ i, i + 1 < (chunked seq n).length →
        ((seq.drop (i * n)).take n).length = n) ∧
    chunked ([] : List α) n = [] := by
  obtain ⟨m, rfl⟩ : ∃ m, n = m + 1 := ⟨n - 1, by omega⟩
  have hlen := chunked_length_aux m seq.length seq (le_refl _)
  have hget := chunked_getElem_aux m seq.length seq (le_refl _)
  have hflat := chunked_flatten_aux m seq.length seq (le_refl _)
  refine ⟨hlen, hget, hflat, ?_, ?_, chunked_nil (m + 1)⟩
  · intro b hb
    obtain ⟨i, hi⟩ := List.mem_iff_getElem?.1 hb
    have hilt : i < (chunked seq (m + 1)).length := by
      by_contra hge
      rw [List.getElem?_eq_none (Nat.le_of_not_lt hge)] at hi
      exact Option.noConfusion hi
    rw [hget i hilt] at hi
    injection hi with hb'
    rw [← hb', List.length_take]
    exact min_le_left _ _
  · intro i hi1
    have hL1 : 1 ≤ seq.length := by
      by_contra h0
      have hz : seq.length = 0 := by omega
      obtain rfl : seq = [] := List.eq_nil_of_length_eq_zero hz
      rw [chunked_nil] at hi1
      simp at hi1
    rw [hlen] at hi1
    have hrw : seq.length + (m + 1) - 1 = (seq.length - 1) + (m + 1) := by omega
    rw [hrw, Nat.add_div_right _ (Nat.succ_pos m)] at hi1
    simp only [Nat.succ_eq_add_one] at hi1
    have h2 : i + 1 ≤ (seq.length - 1) / (m + 1) := by omega
    have h3 : (i + 1) * (m + 1) ≤ ((seq.length - 1) / (m + 1)) * (m + 1) :=
      Nat.mul_le_mul_right _ h2
    have h4 : ((seq.length - 1) / (m + 1)) * (m + 1) ≤ seq.length - 1 :=
      Nat.div_mul_le_self _ _
    have h5 : (i + 1) * (m + 1) = i * (m + 1) + (m + 1) := by ring
    rw [List.length_take, List.length_drop]
    refine inf_eq_left.2 ?_
    omega

/-- Witness for C5: five elements with limit 2 give batches that flatten back
to the input, three of them (ceil(5/2)). -/
theorem chunked_spec_witness :
    (2 : ℕ) ≠ 0 ∧
    (chunked [10, 20, 30, 40, 50] 2).flatten = [10, 20, 30, 40, 50] ∧
    (chunked [10, 20, 30, 40, 50] 2).length = 3 := by
  have h := chunked_spec [10, 20, 30, 40, 50] 2 (by decide)
  exact ⟨by decide, h.2.2.1, h.1.trans (by rfl)⟩
